import Mathlib

/-!
Shallow embedding of the pivot-table aggregation core of the repository
(`src/main.js` and `src/xlsxWorker.js`): header/cell normalization,
status vocabulary ranking, the hierarchical aggregator, the baseline
target calculator and the request-id staleness guard, together with
proofs of the specified properties.

Modelling conventions: JavaScript strings are Lean `String`s and
`localeCompare` is modelled by the code-point lexicographic order on
`String`; JS `Map`s (and the string-keyed plain objects of the worker)
are insertion-ordered association lists; `Math.ceil(x * 1.1)` on
IEEE-754 doubles is modelled exactly by natural-number arithmetic in
`computeTarget`.
-/

namespace Pivot

/-- ASCII whitespace, modelling the `\s` class used by `trim()` and
`replace(/\s+/g, ' ')` in `normalizeHeader`. -/
def isWs (c : Char) : Bool :=
  c == ' ' || c == '\t' || c == '\n' || c == '\r' ||
    c == Char.ofNat 11 || c == Char.ofNat 12

/-- ASCII model of `String.prototype.toLowerCase` on one character. -/
def lowerChar (c : Char) : Char :=
  if 'A' ≤ c ∧ c ≤ 'Z' then Char.ofNat (c.toNat + 32) else c

/-- Replace every whitespace run by a single space
(`.replace(/\s+/g, ' ')`); the flag records whether the previous
character was whitespace. -/
def collapseWsAux : Bool → List Char → List Char
  | _, [] => []
  | prevWs, c :: rest =>
    if isWs c then
      if prevWs then collapseWsAux true rest
      else ' ' :: collapseWsAux true rest
    else c :: collapseWsAux false rest

/-- JS `String.prototype.trim` on the character list. -/
def trimChars (l : List Char) : List Char :=
  ((l.dropWhile isWs).reverse.dropWhile isWs).reverse

/-- `normalizeHeader` (`main.js:26`, `xlsxWorker.js:24`): trim, collapse
internal whitespace runs to one space, lower-case. -/
def normalizeHeader (s : String) : String :=
  String.mk ((collapseWsAux false (trimChars s.data)).map lowerChar)

/-- `normalizeCell` (`main.js:33`, `xlsxWorker.js:31`): trim; an empty
result becomes the blank sentinel `"(blank)"`. -/
def normalizeCell (s : String) : String :=
  let t := String.mk (trimChars s.data)
  if 0 < t.length then t else "(blank)"

/-- Insertion-ordered string-keyed finite map, the model of a JS `Map`
(and of the string-keyed plain objects used in the worker). -/
abbrev SMap (α : Type) := List (String × α)

/-- `Map.prototype.get` (`undefined` becomes `none`). -/
def mget {α : Type} : SMap α → String → Option α
  | [], _ => none
  | (k, v) :: rest, key => if k = key then some v else mget rest key

/-- `Map.prototype.set`: overwrite in place when the key is present,
append otherwise. -/
def mset {α : Type} : SMap α → String → α → SMap α
  | [], key, v => [(key, v)]
  | (k, w) :: rest, key, v =>
    if k = key then (k, v) :: rest else (k, w) :: mset rest key v

/-- `STATUS_PRIORITY` (`main.js:14`, `xlsxWorker.js:12`). -/
def STATUS_PRIORITY : List String :=
  ["Draft", "Submitted", "Approved", "Rejected", "Returned",
   "In Review", "In-Review", "Resubmitted", "Cancelled"]

/-- The priority index built in `sortStatuses` (`main.js:101`): the
position of each canonical status, keyed by its normalized form. -/
def prioIndex : SMap Nat :=
  STATUS_PRIORITY.enum.foldl (fun m p => mset m (normalizeHeader p.2) p.1) []

/-- The comparator's primary key (`main.js:105`): position in the
priority list under header normalization, else `9999`. -/
def rankOf (s : String) : Nat :=
  (mget prioIndex (normalizeHeader s)).getD 9999

/-- Code-point comparison of character lists, the model of
`localeCompare(a, b) <= 0` (core `String` order is not used because it
does not reduce in the kernel). -/
def chLe : List Char → List Char → Bool
  | [], _ => true
  | _ :: _, [] => false
  | a :: as, b :: bs =>
    if a.toNat < b.toNat then true
    else if b.toNat < a.toNat then false
    else chLe as bs

/-- `a.localeCompare(b) <= 0` modelled on code points. -/
def strLe (a b : String) : Prop := chLe a.data b.data = true

/-- The `sortStatuses` comparator as a non-strict relation: ascending
`(rank, literal)`, `localeCompare` modelled by code-point order. -/
def statusLE (a b : String) : Prop :=
  rankOf a < rankOf b ∨ (rankOf a = rankOf b ∧ strLe a b)

instance : DecidableRel statusLE := fun a b => by
  unfold statusLE strLe; infer_instance

/-- `Array.from(new Set(xs))`: deduplication by exact string equality,
keeping the first occurrence of each value. -/
def uniqueFirst (l : List String) : List String :=
  l.foldl (fun acc a => if a ∈ acc then acc else acc ++ [a]) []

/-- `sortStatuses` (`main.js:98`, `xlsxWorker.js:79`): deduplicate
exactly, then sort by `(priority rank, literal)`. -/
def sortStatuses (statuses : List String) : List String :=
  List.insertionSort statusLE (uniqueFirst statuses)

/-- Bit length of a natural number, with explicit fuel so that the
definition is structural; fuel 128 is exact for every product reached
by `computeTarget`. -/
def bitLen : Nat → Nat → Nat
  | 0, _ => 0
  | fuel + 1, n => if n = 0 then 0 else bitLen fuel (n / 2) + 1

/-- Significand numerator of the IEEE-754 double nearest `1.1`:
that double is exactly `2476979795053773 / 2 ^ 51`. -/
def elevenTenths : Nat := 2476979795053773

/-- Round the exact value `N / 2 ^ 51` to the nearest IEEE-754 double
(round half to even), returned as a numerator over `2 ^ 51`. -/
def roundToDouble (N : Nat) : Nat :=
  if N < 2 ^ 53 then N
  else
    let s := bitLen 128 N - 53
    let q := N / 2 ^ s
    let r := N % 2 ^ s
    let h := 2 ^ (s - 1)
    (if h < r ∨ (r = h ∧ q % 2 = 1) then q + 1 else q) * 2 ^ s

/-- `computeTarget` (`main.js:180`): `Math.ceil(total * 1.1)` evaluated
in IEEE-754 double arithmetic, modelled exactly on naturals (the
inline `Math.ceil(count * 1.1)` of `computePrevYearTargets` is the
same operation). -/
def computeTarget (total : Nat) : Nat :=
  (roundToDouble (total * elevenTenths) + 2 ^ 51 - 1) / 2 ^ 51

/-- A normalized input record as produced by `readRowsFromSheet`
(`main.js:89`): the three organizational levels, the application
identifier (possibly empty) and the status value. -/
structure Row where
  ou0 : String
  ou1 : String
  ou2 : String
  applicationKey : String
  status : String
deriving DecidableEq, Repr

/-- A per-node aggregate (`newAgg`, `main.js:114`): per-status counts
plus a running total. -/
structure Agg where
  byStatus : SMap Nat
  total : Nat
deriving DecidableEq, Repr

/-- `newAgg` (`main.js:114`, `newAggRecord` in `xlsxWorker.js:95`):
every tracked status initialized to zero. -/
def newAgg (statusList : List String) : Agg :=
  { byStatus := statusList.foldl (fun m s => mset m s 0) [], total := 0 }

/-- `addToAgg` (`main.js:123`, `addToAggRecord` in `xlsxWorker.js:104`):
bump the total and the count of `status` (created on demand). -/
def addToAgg (agg : Agg) (status : String) (inc : Nat) : Agg :=
  { total := agg.total + inc,
    byStatus := mset agg.byStatus status
      ((mget agg.byStatus status).getD 0 + inc) }

/-- Level-2 node of the aggregation tree (its `children` map is created
in the source but never filled, so it is omitted here). -/
structure LeafNode where
  key : String
  agg : Agg
deriving DecidableEq, Repr

/-- Level-1 node of the aggregation tree. -/
structure MidNode where
  key : String
  children : SMap LeafNode
  agg : Agg
deriving DecidableEq, Repr

/-- Level-0 node of the aggregation tree. -/
structure TopNode where
  key : String
  children : SMap MidNode
  agg : Agg
deriving DecidableEq, Repr

/-- The root of the aggregation tree (`main.js:134`). -/
structure RootNode where
  children : SMap TopNode
  agg : Agg
deriving DecidableEq, Repr

/-- One row's effect on a level-1 node's children (`main.js:162-170`):
get-or-insert the `ou2` child, then `addToAgg` on it. -/
def leafStep (m : SMap LeafNode) (statuses : List String) (r : Row) :
    SMap LeafNode :=
  let n := (mget m r.ou2).getD ⟨r.ou2, newAgg statuses⟩
  mset m r.ou2 ⟨n.key, addToAgg n.agg r.status 1⟩

/-- One row's effect on a level-0 node's children (`main.js:152-160`). -/
def midStep (m : SMap MidNode) (statuses : List String) (r : Row) :
    SMap MidNode :=
  let n := (mget m r.ou1).getD ⟨r.ou1, [], newAgg statuses⟩
  mset m r.ou1 ⟨n.key, leafStep n.children statuses r, addToAgg n.agg r.status 1⟩

/-- One row's effect on the root's children (`main.js:142-150`). -/
def topStep (m : SMap TopNode) (statuses : List String) (r : Row) :
    SMap TopNode :=
  let n := (mget m r.ou0).getD ⟨r.ou0, [], newAgg statuses⟩
  mset m r.ou0 ⟨n.key, midStep n.children statuses r, addToAgg n.agg r.status 1⟩

/-- One row's effect on the whole tree (`main.js:139-171`): the root
aggregate and each visited descendant gain one count. -/
def rootStep (st : RootNode) (statuses : List String) (r : Row) : RootNode :=
  ⟨topStep st.children statuses r, addToAgg st.agg r.status 1⟩

/-- Result of `buildPivot`: the tree plus the status column order. -/
structure PivotResult where
  root : RootNode
  statuses : List String
deriving DecidableEq, Repr

/-- The `filtered` list of `buildPivot` / `buildPivotFlat`
(`main.js:129`, `xlsxWorker.js:131`): rows with a non-empty
application key. -/
def filteredRows (rows : List Row) : List Row :=
  rows.filter (fun r => 0 < r.applicationKey.length)

/-- The `statuses` list of `buildPivot` / `buildPivotFlat`
(`main.js:130-132`, `xlsxWorker.js:132-134`): the ranked status
vocabulary of the filtered rows, with `Draft` removed from the visible
columns. -/
def pivotStatuses (rows : List Row) : List String :=
  (sortStatuses ((filteredRows rows).map (fun r => r.status))).filter
    (fun s => !(normalizeHeader s == normalizeHeader "Draft"))

/-- `buildPivot` (`main.js:128`): drop rows with an empty application
key, fix the status order (with `Draft` removed from the visible
columns), then fold every filtered row into the tree. -/
def buildPivot (rows : List Row) : PivotResult :=
  { root := (filteredRows rows).foldl
      (fun st r => rootStep st (pivotStatuses rows) r)
      ⟨[], newAgg (pivotStatuses rows)⟩,
    statuses := pivotStatuses rows }

/-- Level-0 entry of the flattened pivot (`xlsxWorker.js:143`). -/
structure FlatNode where
  key : String
  agg : Agg
deriving DecidableEq, Repr

/-- The comparator of `buildPivotFlat`'s presentation sort
(`xlsxWorker.js:151`): plain `key.localeCompare`, no blank-sentinel
override. -/
def flatLE (a b : FlatNode) : Prop := strLe a.key b.key

instance : DecidableRel flatLE := fun a b => by
  unfold flatLE strLe; infer_instance

/-- Result of `buildPivotFlat` (`xlsxWorker.js:153`). -/
structure FlatPivot where
  statuses : List String
  grandAgg : Agg
  ou0Aggs : List FlatNode
  filteredCount : Nat
  totalCount : Nat
deriving DecidableEq, Repr

/-- One row's effect on the flat `ou0Map` (`xlsxWorker.js:142-148`). -/
def flatStep (m : SMap FlatNode) (statuses : List String) (r : Row) :
    SMap FlatNode :=
  let n := (mget m r.ou0).getD ⟨r.ou0, newAgg statuses⟩
  mset m r.ou0 ⟨n.key, addToAgg n.agg r.status 1⟩

/-- The single loop of `buildPivotFlat` (`xlsxWorker.js:139-149`):
each filtered row updates the grand aggregate and its `ou0Map` entry. -/
def flatFold (rows : List Row) : Agg × SMap FlatNode :=
  (filteredRows rows).foldl
    (fun st r => (addToAgg st.1 r.status 1, flatStep st.2 (pivotStatuses rows) r))
    (newAgg (pivotStatuses rows), [])

/-- `buildPivotFlat` (`xlsxWorker.js:130`): grand aggregate plus one
level of `ou0` groups, the groups sorted by `key.localeCompare` only. -/
def buildPivotFlat (rows : List Row) : FlatPivot :=
  { statuses := pivotStatuses rows,
    grandAgg := (flatFold rows).1,
    ou0Aggs := List.insertionSort flatLE ((flatFold rows).2.map (fun p => p.2)),
    filteredCount := (filteredRows rows).length,
    totalCount := rows.length }

/-- Per-group counts and grand count of the prior-period dataset
(the counting loop of `computePrevYearTargets`, `xlsxWorker.js:110-116`):
rows with an empty application key are skipped. -/
def prevCounts (prevRows : List Row) : SMap Nat × Nat :=
  prevRows.foldl
    (fun acc r =>
      if r.applicationKey = "" then acc
      else (mset acc.1 r.ou0 ((mget acc.1 r.ou0).getD 0 + 1), acc.2 + 1))
    ([], 0)

/-- Result of `computePrevYearTargets` (`xlsxWorker.js:123`). -/
structure PrevTargets where
  perOU0Targets : SMap Nat
  grandTarget : Nat
  grandCount : Nat
deriving DecidableEq, Repr

/-- `computePrevYearTargets` (`xlsxWorker.js:109`): count
identifier-bearing prior rows per `ou0` and in total, then apply
`Math.ceil(count * 1.1)` to each count. -/
def computePrevYearTargets (prevRows : List Row) : PrevTargets :=
  let c := prevCounts prevRows
  { perOU0Targets := c.1.map (fun p => (p.1, computeTarget p.2)),
    grandTarget := computeTarget c.2,
    grandCount := c.2 }

/-- The `prevTargets` shared state of `main.js:457`. -/
structure PrevState where
  perOU0 : SMap Nat
  grand : Option Nat
  available : Bool
deriving DecidableEq, Repr

/-- Row kinds distinguished by `appendRow` (`main.js:731`). -/
inductive RowKind
  | normal
  | group0
  | grand
deriving DecidableEq, Repr

/-- The target selection of `renderPivotFlat` (`main.js:754-762`): the
grand row uses the prior-derived grand target when available, a level-0
group uses its prior-derived per-group target when present, and every
other case falls back to `computeTarget` of the row's own total. -/
def selectTarget (prev : PrevState) (kind : RowKind) (label : String)
    (current : Nat) : Nat :=
  if prev.available = true ∧ kind = RowKind.grand ∧ prev.grand.isSome then
    prev.grand.getD 0
  else if prev.available = true ∧ kind = RowKind.group0 ∧
      (mget prev.perOU0 label).isSome then
    (mget prev.perOU0 label).getD 0
  else computeTarget current

/-- The comparator of `renderPivot`'s level-0 key sort
(`main.js:971-975`): the blank sentinel is pushed after every other
key, everything else by `localeCompare`. -/
def renderLE (a b : String) : Prop :=
  b = "(blank)" ∨ (a ≠ "(blank)" ∧ strLe a b)

instance : DecidableRel renderLE := fun a b => by
  unfold renderLE strLe; infer_instance

/-- The level-0 key order presented by `renderPivot` (`main.js:971`):
the root's child keys sorted with the blank sentinel last. -/
def renderOu0Keys (st : RootNode) : List String :=
  List.insertionSort renderLE (st.children.map (fun p => p.1))

/-- The coordinator state touched by `processIfReady` (`main.js:625`):
the `activeProcessId` counter and the currently visible result. -/
structure CoordState (R : Type) where
  activeProcessId : Nat
  visible : Option R
deriving DecidableEq, Repr

/-- Issuing a request (`main.js:626-636`): the output is cleared
(`clearOutput` / `resetPrevTargets`) and a fresh, strictly larger
request id is allocated (`const myId = ++activeProcessId`). -/
def issueRequest {R : Type} (s : CoordState R) : CoordState R × Nat :=
  (⟨s.activeProcessId + 1, none⟩, s.activeProcessId + 1)

/-- A result arriving for request `id` (`main.js:660`): it is applied
only when `id` is still the latest request id, otherwise it is
silently discarded. -/
def applyResult {R : Type} (s : CoordState R) (id : Nat) (res : R) :
    CoordState R :=
  if id = s.activeProcessId then ⟨s.activeProcessId, some res⟩ else s

/-! ### Specification functions and invariant predicates -/

/-- Sum of `f` over the values of an association list. -/
def sumBy {α : Type} (f : α → Nat) (m : SMap α) : Nat :=
  (m.map (fun p => f p.2)).sum

/-- The count stored for status `s` (`byStatus.get(s) ?? 0`). -/
def getCount (a : Agg) (s : String) : Nat :=
  (mget a.byStatus s).getD 0

/-- Sum of all per-status counts actually stored in the aggregate's
`byStatus` map. -/
def sumVals (a : Agg) : Nat :=
  sumBy (fun n => n) a.byStatus

/-- The per-aggregate invariant: the total equals the sum of the
stored per-status counts. -/
def aggOK (a : Agg) : Prop := a.total = sumVals a

/-- Invariant of a level-2 node. -/
def leafOK (n : LeafNode) : Prop := aggOK n.agg

/-- Invariant of a level-1 node: its own aggregate is consistent, its
total and every per-status count equal the sums over its children, and
every child satisfies the leaf invariant. -/
def midOK (n : MidNode) : Prop :=
  aggOK n.agg ∧
  n.agg.total = sumBy (fun c => c.agg.total) n.children ∧
  (∀ s, getCount n.agg s = sumBy (fun c => getCount c.agg s) n.children) ∧
  ∀ p ∈ n.children, leafOK p.2

/-- Invariant of a level-0 node. -/
def topOK (n : TopNode) : Prop :=
  aggOK n.agg ∧
  n.agg.total = sumBy (fun c => c.agg.total) n.children ∧
  (∀ s, getCount n.agg s = sumBy (fun c => getCount c.agg s) n.children) ∧
  ∀ p ∈ n.children, midOK p.2

/-- Invariant of the whole aggregation tree. -/
def rootOK (st : RootNode) : Prop :=
  aggOK st.agg ∧
  st.agg.total = sumBy (fun c => c.agg.total) st.children ∧
  (∀ s, getCount st.agg s = sumBy (fun c => getCount c.agg s) st.children) ∧
  ∀ p ∈ st.children, topOK p.2

/-- Sum of a node's counts over the visible status columns of a pivot
(the per-row cells of a rendered line, excluding the total column). -/
def statusColumnSum (statuses : List String) (a : Agg) : Nat :=
  (statuses.map (fun s => getCount a s)).sum

/-! ### Properties of the `localeCompare` model -/

theorem char_eq_of_toNat_eq {a b : Char} (h : a.toNat = b.toNat) : a = b :=
  Char.eq_of_val_eq (UInt32.ext h)

theorem chLe_cons_iff (x y : Char) (xs ys : List Char) :
    chLe (x :: xs) (y :: ys) = true ↔
      x.toNat < y.toNat ∨ (x.toNat = y.toNat ∧ chLe xs ys = true) := by
  by_cases h1 : x.toNat < y.toNat
  · simp [chLe, h1]
  · by_cases h2 : y.toNat < x.toNat
    · simp [chLe, h1, h2]
      omega
    · have hxy : x.toNat = y.toNat := le_antisymm (Nat.not_lt.mp h2) (Nat.not_lt.mp h1)
      simp [chLe, h1, h2, hxy]

theorem chLe_total : ∀ a b : List Char, chLe a b = true ∨ chLe b a = true := by
  intro a
  induction a with
  | nil => intro b; exact Or.inl rfl
  | cons x xs ih =>
    intro b
    cases b with
    | nil => exact Or.inr rfl
    | cons y ys =>
      rcases Nat.lt_trichotomy x.toNat y.toNat with h | h | h
      · exact Or.inl ((chLe_cons_iff ..).mpr (Or.inl h))
      · rcases ih ys with hr | hr
        · exact Or.inl ((chLe_cons_iff ..).mpr (Or.inr ⟨h, hr⟩))
        · exact Or.inr ((chLe_cons_iff ..).mpr (Or.inr ⟨h.symm, hr⟩))
      · exact Or.inr ((chLe_cons_iff ..).mpr (Or.inl h))

theorem chLe_trans :
    ∀ a b c : List Char, chLe a b = true → chLe b c = true → chLe a c = true := by
  intro a
  induction a with
  | nil => intro b c _ _; rfl
  | cons x xs ih =>
    intro b c hab hbc
    cases b with
    | nil => simp [chLe] at hab
    | cons y ys =>
      cases c with
      | nil => simp [chLe] at hbc
      | cons z zs =>
        rcases (chLe_cons_iff ..).mp hab with h1 | ⟨h1, h1r⟩ <;>
          rcases (chLe_cons_iff ..).mp hbc with h2 | ⟨h2, h2r⟩
        · exact (chLe_cons_iff ..).mpr (Or.inl (h1.trans h2))
        · exact (chLe_cons_iff ..).mpr (Or.inl (h2 ▸ h1))
        · exact (chLe_cons_iff ..).mpr (Or.inl (h1 ▸ h2))
        · exact (chLe_cons_iff ..).mpr (Or.inr ⟨h1.trans h2, ih ys zs h1r h2r⟩)

theorem chLe_antisymm :
    ∀ a b : List Char, chLe a b = true → chLe b a = true → a = b := by
  intro a
  induction a with
  | nil =>
    intro b _ hba
    cases b with
    | nil => rfl
    | cons y ys => simp [chLe] at hba
  | cons x xs ih =>
    intro b hab hba
    cases b with
    | nil => simp [chLe] at hab
    | cons y ys =>
      rcases (chLe_cons_iff ..).mp hab with h1 | ⟨h1, h1r⟩ <;>
        rcases (chLe_cons_iff ..).mp hba with h2 | ⟨h2, h2r⟩
      · omega
      · omega
      · omega
      · exact congrArg₂ List.cons (char_eq_of_toNat_eq h1) (ih ys h1r h2r)

theorem str_eq_of_data_eq {a b : String} (h : a.data = b.data) : a = b := by
  cases a
  cases b
  exact congrArg String.mk h

theorem strLe_total (a b : String) : strLe a b ∨ strLe b a :=
  chLe_total a.data b.data

theorem strLe_trans {a b c : String} (h1 : strLe a b) (h2 : strLe b c) :
    strLe a c :=
  chLe_trans a.data b.data c.data h1 h2

theorem strLe_antisymm {a b : String} (h1 : strLe a b) (h2 : strLe b a) :
    a = b :=
  str_eq_of_data_eq (chLe_antisymm a.data b.data h1 h2)

/-! ### The status comparator is a total order -/

theorem statusLE_total (a b : String) : statusLE a b ∨ statusLE b a := by
  unfold statusLE
  rcases Nat.lt_trichotomy (rankOf a) (rankOf b) with h | h | h
  · exact Or.inl (Or.inl h)
  · rcases strLe_total a b with hs | hs
    · exact Or.inl (Or.inr ⟨h, hs⟩)
    · exact Or.inr (Or.inr ⟨h.symm, hs⟩)
  · exact Or.inr (Or.inl h)

theorem statusLE_trans {a b c : String} (hab : statusLE a b)
    (hbc : statusLE b c) : statusLE a c := by
  unfold statusLE at *
  rcases hab with h1 | ⟨h1, h1s⟩ <;> rcases hbc with h2 | ⟨h2, h2s⟩
  · exact Or.inl (h1.trans h2)
  · exact Or.inl (h2 ▸ h1)
  · exact Or.inl (h1 ▸ h2)
  · exact Or.inr ⟨h1.trans h2, strLe_trans h1s h2s⟩

theorem statusLE_antisymm {a b : String} (hab : statusLE a b)
    (hba : statusLE b a) : a = b := by
  unfold statusLE at *
  rcases hab with h1 | ⟨h1, h1s⟩ <;> rcases hba with h2 | ⟨h2, h2s⟩
  · exact absurd (h1.trans h2) (lt_irrefl _)
  · exact absurd (h2 ▸ h1) (lt_irrefl _)
  · exact absurd (h1 ▸ h2) (lt_irrefl _)
  · exact strLe_antisymm h1s h2s

theorem renderLE_total (a b : String) : renderLE a b ∨ renderLE b a := by
  unfold renderLE
  by_cases ha : a = "(blank)"
  · exact Or.inr (Or.inl ha)
  · by_cases hb : b = "(blank)"
    · exact Or.inl (Or.inl hb)
    · rcases strLe_total a b with h | h
      · exact Or.inl (Or.inr ⟨ha, h⟩)
      · exact Or.inr (Or.inr ⟨hb, h⟩)

theorem renderLE_trans {a b c : String} (hab : renderLE a b)
    (hbc : renderLE b c) : renderLE a c := by
  unfold renderLE at *
  rcases hbc with h2 | ⟨h2, h2s⟩
  · exact Or.inl h2
  · rcases hab with h1 | ⟨h1, h1s⟩
    · exact absurd h1 h2
    · exact Or.inr ⟨h1, strLe_trans h1s h2s⟩

theorem renderLE_antisymm {a b : String} (hab : renderLE a b)
    (hba : renderLE b a) : a = b := by
  unfold renderLE at *
  rcases hab with h1 | ⟨h1, h1s⟩ <;> rcases hba with h2 | ⟨h2, h2s⟩
  · exact h2.trans h1.symm
  · exact absurd h1 h2
  · exact absurd h2 h1
  · exact strLe_antisymm h1s h2s

/-! ### Deduplication -/

theorem mem_uniqueFirst_fold (l : List String) :
    ∀ (acc : List String) (a : String),
      a ∈ l.foldl (fun acc x => if x ∈ acc then acc else acc ++ [x]) acc ↔
        a ∈ acc ∨ a ∈ l := by
  induction l with
  | nil => intro acc a; simp
  | cons x xs ih =>
    intro acc a
    by_cases hx : x ∈ acc
    · rw [List.foldl_cons, if_pos hx, ih]
      constructor
      · rintro (h | h)
        · exact Or.inl h
        · exact Or.inr (List.mem_cons_of_mem x h)
      · rintro (h | h)
        · exact Or.inl h
        · rcases List.mem_cons.mp h with rfl | h
          · exact Or.inl hx
          · exact Or.inr h
    · rw [List.foldl_cons, if_neg hx, ih]
      simp only [List.mem_append, List.mem_singleton, List.mem_cons]
      tauto

theorem nodup_uniqueFirst_fold (l : List String) :
    ∀ acc : List String, acc.Nodup →
      (l.foldl (fun acc x => if x ∈ acc then acc else acc ++ [x]) acc).Nodup := by
  induction l with
  | nil => intro acc h; simpa using h
  | cons x xs ih =>
    intro acc hacc
    by_cases hx : x ∈ acc
    · rw [List.foldl_cons, if_pos hx]
      exact ih acc hacc
    · rw [List.foldl_cons, if_neg hx]
      refine ih _ ?_
      simp [List.nodup_append, hacc, hx]

theorem mem_uniqueFirst (l : List String) (a : String) :
    a ∈ uniqueFirst l ↔ a ∈ l := by
  unfold uniqueFirst
  rw [mem_uniqueFirst_fold]
  simp

theorem nodup_uniqueFirst (l : List String) : (uniqueFirst l).Nodup :=
  nodup_uniqueFirst_fold l [] List.nodup_nil

theorem mem_sortStatuses (l : List String) (a : String) :
    a ∈ sortStatuses l ↔ a ∈ l := by
  unfold sortStatuses
  rw [(List.perm_insertionSort statusLE (uniqueFirst l)).mem_iff]
  exact mem_uniqueFirst l a

theorem nodup_sortStatuses (l : List String) : (sortStatuses l).Nodup :=
  (List.perm_insertionSort statusLE (uniqueFirst l)).nodup_iff.mpr
    (nodup_uniqueFirst l)

/-! ### Claim C4 -/

/-- C4 counterexample: `sortStatuses` deduplicates only by exact string
equality, not by case/whitespace-insensitive comparison.  The two
literals `"In  Review"` (double space) and `"In Review"` have the same
normalized form, yet both survive in the returned sequence, so the
returned sequence does contain two entries that are equal up to
trimming, whitespace collapsing and lower-casing. -/
theorem sortStatuses_dedup_counterexample :
    sortStatuses ["In  Review", "In Review"] = ["In  Review", "In Review"] ∧
      normalizeHeader "In  Review" = normalizeHeader "In Review" ∧
      "In  Review" ≠ "In Review" := by
  refine ⟨by decide, by decide, by decide⟩

/-- C4 (amended): the status ranker deduplicates by exact string
equality, keeping the first occurrence of each literal: the returned
sequence has no two identical entries and contains exactly the strings
of the input (case/whitespace-variant forms are all kept). -/
theorem sortStatuses_dedup_exact (l : List String) :
    (sortStatuses l).Nodup ∧ ∀ a, a ∈ sortStatuses l ↔ a ∈ l :=
  ⟨nodup_sortStatuses l, mem_sortStatuses l⟩

/-! ### Claim C6 -/

/-- C6: the status ordering is a pure function of the set of distinct
statuses present: two inputs containing the same statuses, in any
order and with any multiplicities, produce the same ordered status
sequence from `sortStatuses`. -/
theorem sortStatuses_pure_function_of_set (l₁ l₂ : List String)
    (h₁ : l₁ ⊆ l₂) (h₂ : l₂ ⊆ l₁) : sortStatuses l₁ = sortStatuses l₂ := by
  haveI : IsTotal String statusLE := ⟨statusLE_total⟩
  haveI : IsTrans String statusLE := ⟨fun _ _ _ => statusLE_trans⟩
  haveI : IsAntisymm String statusLE := ⟨fun _ _ => statusLE_antisymm⟩
  refine List.eq_of_perm_of_sorted ?_
    (List.sorted_insertionSort statusLE (uniqueFirst l₁))
    (List.sorted_insertionSort statusLE (uniqueFirst l₂))
  have pu : List.Perm (uniqueFirst l₁) (uniqueFirst l₂) := by
    refine (List.perm_ext_iff_of_nodup (nodup_uniqueFirst l₁)
      (nodup_uniqueFirst l₂)).mpr ?_
    intro a
    rw [mem_uniqueFirst, mem_uniqueFirst]
    exact ⟨fun h => h₁ h, fun h => h₂ h⟩
  exact (List.perm_insertionSort statusLE (uniqueFirst l₁)).trans
    (pu.trans (List.perm_insertionSort statusLE (uniqueFirst l₂)).symm)

/-- Witness for C6 at a concrete pair of set-equal inputs. -/
theorem sortStatuses_pure_function_of_set_witness :
    ((["Zeta", "Approved", "Approved"] : List String) ⊆ ["Approved", "Zeta"] ∧
      (["Approved", "Zeta"] : List String) ⊆ ["Zeta", "Approved", "Approved"]) ∧
    sortStatuses ["Zeta", "Approved", "Approved"] =
      sortStatuses ["Approved", "Zeta"] :=
  ⟨⟨by decide, by decide⟩,
    sortStatuses_pure_function_of_set _ _ (by decide) (by decide)⟩

/-! ### Claim C7 -/

/-- C7: `sortStatuses` returns a sequence sorted by position in
`STATUS_PRIORITY` (statuses absent from the list rank `9999`, hence
after all present ones, alphabetically among themselves via the
literal tie-break), and the input `{Approved, Zeta, Draft}` is ordered
as `[Draft, Approved, Zeta]`. -/
theorem sortStatuses_priority_order :
    (∀ l, List.Sorted statusLE (sortStatuses l)) ∧
    sortStatuses ["Approved", "Zeta", "Draft"] =
      ["Draft", "Approved", "Zeta"] := by
  haveI : IsTotal String statusLE := ⟨statusLE_total⟩
  haveI : IsTrans String statusLE := ⟨fun _ _ _ => statusLE_trans⟩
  exact ⟨fun l => List.sorted_insertionSort statusLE (uniqueFirst l), by decide⟩

/-! ### Claim C9 -/

/-- C9: if request A is issued, then request B, and B's result is
applied before A's arrives, A's result is silently discarded: the
visible state is B's result, never A's.  `issueRequest` models
`clearOutput` / `resetPrevTargets` / `++activeProcessId`
(`main.js:626-636`) and `applyResult` the `myId !== activeProcessId`
staleness guard (`main.js:660`). -/
theorem stale_result_discarded {R : Type} (s₀ : CoordState R)
    (resA resB : R) :
    (applyResult
        (applyResult (issueRequest (issueRequest s₀).1).1
          (issueRequest (issueRequest s₀).1).2 resB)
        (issueRequest s₀).2 resA).visible = some resB := by
  have h : s₀.activeProcessId + 1 ≠ s₀.activeProcessId + 1 + 1 := by omega
  simp [issueRequest, applyResult, h]

/-! ### Claim C2 -/

/-- C2 counterexample: a prior dataset of 90 identifier-bearing rows
produces a grand target of `100`, not `ceil(90 * 1.1) = 99`: in
IEEE-754 double arithmetic `90 * 1.1` evaluates to
`99.00000000000001…`, whose ceiling is `100`. -/
theorem prevYearTargets_ninety_counterexample :
    (computePrevYearTargets
        (List.replicate 90 ⟨"Zeta", "U", "V", "K1", "Approved"⟩)).grandCount
      = 90 ∧
    (computePrevYearTargets
        (List.replicate 90 ⟨"Zeta", "U", "V", "K1", "Approved"⟩)).grandTarget
      = 100 ∧ (100 : Nat) ≠ 99 := by
  refine ⟨by decide, by decide, by decide⟩

/-- C2 (amended): the baseline calculator assigns
`target = Math.ceil(count * 1.1)` evaluated in IEEE-754 double
arithmetic (`computeTarget`) to the grand count and to each level-0
group count.  For a count of `7` this is `8`, as the spec says, but
for a count of `90` the double product rounds up and the target is
`100`, not `99`. -/
theorem prevYearTargets_formula (prevRows : List Row) :
    (computePrevYearTargets prevRows).grandTarget
        = computeTarget (computePrevYearTargets prevRows).grandCount ∧
    (computePrevYearTargets prevRows).perOU0Targets
        = (prevCounts prevRows).1.map (fun p => (p.1, computeTarget p.2)) ∧
    computeTarget 7 = 8 ∧ computeTarget 90 = 100 :=
  ⟨rfl, rfl, by decide, by decide⟩

/-! ### Association-list lemmas -/

theorem mget_mset_self {α : Type} (m : SMap α) (k : String) (v : α) :
    mget (mset m k v) k = some v := by
  induction m with
  | nil => simp [mset, mget]
  | cons p rest ih =>
    obtain ⟨k', w⟩ := p
    by_cases h : k' = k
    · simp [mset, mget, h]
    · simp [mset, mget, h, ih]

theorem mget_mset_ne {α : Type} (m : SMap α) {k key : String} (v : α)
    (h : k ≠ key) : mget (mset m k v) key = mget m key := by
  induction m with
  | nil => simp [mset, mget, h]
  | cons p rest ih =>
    obtain ⟨k', w⟩ := p
    by_cases hk : k' = k
    · subst hk
      simp [mset, mget, h]
    · simp [mset, mget, hk, ih]

theorem sumBy_mset_none {α : Type} (f : α → Nat) (m : SMap α)
    {k : String} (v : α) (h : mget m k = none) :
    sumBy f (mset m k v) = sumBy f m + f v := by
  induction m with
  | nil => simp [mset, sumBy]
  | cons p rest ih =>
    obtain ⟨k', w⟩ := p
    by_cases hk : k' = k
    · simp [mget, hk] at h
    · simp only [mget, hk, if_false] at h
      simp only [mset, hk, if_false, sumBy, List.map_cons, List.sum_cons]
      have h2 := ih h
      simp only [sumBy] at h2
      omega

theorem sumBy_mset_some {α : Type} (f : α → Nat) (m : SMap α)
    {k : String} (v : α) {w : α} (h : mget m k = some w) :
    sumBy f (mset m k v) + f w = sumBy f m + f v := by
  induction m with
  | nil => simp [mget] at h
  | cons p rest ih =>
    obtain ⟨k', u⟩ := p
    by_cases hk : k' = k
    · simp only [mget, hk, if_true] at h
      obtain rfl : u = w := by simpa using h
      simp [mset, hk, sumBy]
      omega
    · simp only [mget, hk, if_false] at h
      simp only [mset, hk, if_false, sumBy, List.map_cons, List.sum_cons]
      have := ih h
      simp only [sumBy] at this
      omega

theorem mem_mset {α : Type} (m : SMap α) (k : String) (v : α) :
    ∀ p ∈ mset m k v, p = (k, v) ∨ p ∈ m := by
  induction m with
  | nil => simp [mset]
  | cons q rest ih =>
    obtain ⟨k', w⟩ := q
    by_cases hk : k' = k
    · subst hk
      intro p hp
      rw [show mset ((k', w) :: rest) k' v = (k', v) :: rest by
        simp [mset]] at hp
      rcases List.mem_cons.mp hp with rfl | hp
      · exact Or.inl rfl
      · exact Or.inr (List.mem_cons_of_mem _ hp)
    · intro p hp
      simp only [mset, hk, if_false] at hp
      rcases List.mem_cons.mp hp with rfl | hp
      · exact Or.inr (List.mem_cons_self ..)
      · rcases ih p hp with h | h
        · exact Or.inl h
        · exact Or.inr (List.mem_cons_of_mem _ h)

theorem mget_mem {α : Type} (m : SMap α) {k : String} {v : α}
    (h : mget m k = some v) : (k, v) ∈ m := by
  induction m with
  | nil => simp [mget] at h
  | cons p rest ih =>
    obtain ⟨k', w⟩ := p
    by_cases hk : k' = k
    · subst hk
      simp only [mget, if_true] at h
      obtain rfl : w = v := by simpa using h
      exact List.mem_cons_self ..
    · simp only [mget, hk, if_false] at h
      exact List.mem_cons_of_mem _ (ih h)

/-! ### Aggregate lemmas -/

theorem addToAgg_total (a : Agg) (s : String) (i : Nat) :
    (addToAgg a s i).total = a.total + i := rfl

theorem getCount_addToAgg (a : Agg) (st s : String) (i : Nat) :
    getCount (addToAgg a st i) s =
      getCount a s + (if st = s then i else 0) := by
  unfold getCount addToAgg
  by_cases h : st = s
  · subst h
    simp [mget_mset_self]
  · simp [mget_mset_ne _ _ h, h]

theorem sumVals_addToAgg (a : Agg) (s : String) (i : Nat) :
    sumVals (addToAgg a s i) = sumVals a + i := by
  unfold sumVals
  rw [show (addToAgg a s i).byStatus
      = mset a.byStatus s ((mget a.byStatus s).getD 0 + i) from rfl]
  rcases hm : mget a.byStatus s with _ | w
  · simp only [Option.getD_none]
    rw [sumBy_mset_none _ _ _ hm]
    simp
  · simp only [Option.getD_some]
    have h2 := sumBy_mset_some (fun n => n) a.byStatus (w + i) hm
    simp only at h2
    omega

theorem aggOK_addToAgg {a : Agg} (h : aggOK a) (s : String) (i : Nat) :
    aggOK (addToAgg a s i) := by
  unfold aggOK at *
  rw [addToAgg_total, sumVals_addToAgg, h]

theorem newAgg_vals_zero (l : List String) :
    ∀ p ∈ (newAgg l).byStatus, p.2 = 0 := by
  unfold newAgg
  suffices h : ∀ (l : List String) (m : SMap Nat),
      (∀ p ∈ m, p.2 = 0) →
      ∀ p ∈ l.foldl (fun m s => mset m s 0) m, p.2 = 0 by
    exact h l [] (by simp)
  intro l
  induction l with
  | nil => intro m hm; simpa using hm
  | cons x xs ih =>
    intro m hm
    rw [List.foldl_cons]
    refine ih _ ?_
    intro p hp
    rcases mem_mset m x 0 p hp with rfl | hp
    · rfl
    · exact hm p hp

theorem getCount_newAgg (l : List String) (s : String) :
    getCount (newAgg l) s = 0 := by
  unfold getCount
  rcases hm : mget (newAgg l).byStatus s with _ | w
  · rfl
  · have := newAgg_vals_zero l _ (mget_mem _ hm)
    simpa using this

theorem sumVals_newAgg (l : List String) : sumVals (newAgg l) = 0 := by
  unfold sumVals sumBy
  refine List.sum_eq_zero ?_
  intro x hx
  rcases List.mem_map.mp hx with ⟨p, hp, rfl⟩
  exact newAgg_vals_zero l p hp

theorem newAgg_total (l : List String) : (newAgg l).total = 0 := rfl

theorem aggOK_newAgg (l : List String) : aggOK (newAgg l) := by
  unfold aggOK
  rw [newAgg_total, sumVals_newAgg]

/-! ### One-row effects on each level of the aggregation tree -/

theorem leafStep_sum_total (m : SMap LeafNode) (statuses : List String)
    (r : Row) :
    sumBy (fun c => c.agg.total) (leafStep m statuses r)
      = sumBy (fun c => c.agg.total) m + 1 := by
  unfold leafStep
  rcases hm : mget m r.ou2 with _ | w
  · simp only [Option.getD_none]
    rw [sumBy_mset_none _ _ _ hm]
    simp [addToAgg_total, newAgg_total]
  · simp only [Option.getD_some]
    have h2 := sumBy_mset_some (fun c => c.agg.total) m
      (⟨w.key, addToAgg w.agg r.status 1⟩ : LeafNode) hm
    simp only [addToAgg_total] at h2
    omega

theorem leafStep_sum_count (m : SMap LeafNode) (statuses : List String)
    (r : Row) (s : String) :
    sumBy (fun c => getCount c.agg s) (leafStep m statuses r)
      = sumBy (fun c => getCount c.agg s) m
        + (if r.status = s then 1 else 0) := by
  unfold leafStep
  rcases hm : mget m r.ou2 with _ | w
  · simp only [Option.getD_none]
    rw [sumBy_mset_none _ _ _ hm]
    simp [getCount_addToAgg, getCount_newAgg]
  · simp only [Option.getD_some]
    have h2 := sumBy_mset_some (fun c => getCount c.agg s) m
      (⟨w.key, addToAgg w.agg r.status 1⟩ : LeafNode) hm
    simp only [getCount_addToAgg] at h2
    omega

theorem leafStep_leafOK (m : SMap LeafNode) (statuses : List String)
    (r : Row) (hm : ∀ p ∈ m, leafOK p.2) :
    ∀ p ∈ leafStep m statuses r, leafOK p.2 := by
  unfold leafStep
  intro p hp
  rcases mem_mset _ _ _ p hp with rfl | hp2
  · rcases hg : mget m r.ou2 with _ | w
    · simp only [hg, Option.getD_none]
      exact aggOK_addToAgg (aggOK_newAgg statuses) _ _
    · simp only [hg, Option.getD_some]
      exact aggOK_addToAgg (hm _ (mget_mem _ hg)) _ _
  · exact hm p hp2

theorem midOK_new (k : String) (statuses : List String) :
    midOK ⟨k, [], newAgg statuses⟩ := by
  refine ⟨aggOK_newAgg statuses, ?_, ?_, ?_⟩
  · simp [sumBy, newAgg_total]
  · intro s
    simp [sumBy, getCount_newAgg]
  · simp

theorem midOK_apply {n : MidNode} (statuses : List String) (r : Row)
    (h : midOK n) :
    midOK ⟨n.key, leafStep n.children statuses r,
      addToAgg n.agg r.status 1⟩ := by
  obtain ⟨h1, h2, h3, h4⟩ := h
  refine ⟨aggOK_addToAgg h1 _ _, ?_, ?_, ?_⟩
  · show (addToAgg n.agg r.status 1).total
      = sumBy (fun c => c.agg.total) (leafStep n.children statuses r)
    rw [addToAgg_total, leafStep_sum_total, h2]
  · intro s
    show getCount (addToAgg n.agg r.status 1) s
      = sumBy (fun c => getCount c.agg s) (leafStep n.children statuses r)
    rw [getCount_addToAgg, leafStep_sum_count, h3 s]
  · exact leafStep_leafOK _ _ _ h4

theorem midStep_sum_total (m : SMap MidNode) (statuses : List String)
    (r : Row) :
    sumBy (fun c => c.agg.total) (midStep m statuses r)
      = sumBy (fun c => c.agg.total) m + 1 := by
  unfold midStep
  rcases hm : mget m r.ou1 with _ | w
  · simp only [Option.getD_none]
    rw [sumBy_mset_none _ _ _ hm]
    simp [addToAgg_total, newAgg_total]
  · simp only [Option.getD_some]
    have h2 := sumBy_mset_some (fun c => c.agg.total) m
      (⟨w.key, leafStep w.children statuses r,
        addToAgg w.agg r.status 1⟩ : MidNode) hm
    simp only [addToAgg_total] at h2
    omega

theorem midStep_sum_count (m : SMap MidNode) (statuses : List String)
    (r : Row) (s : String) :
    sumBy (fun c => getCount c.agg s) (midStep m statuses r)
      = sumBy (fun c => getCount c.agg s) m
        + (if r.status = s then 1 else 0) := by
  unfold midStep
  rcases hm : mget m r.ou1 with _ | w
  · simp only [Option.getD_none]
    rw [sumBy_mset_none _ _ _ hm]
    simp [getCount_addToAgg, getCount_newAgg]
  · simp only [Option.getD_some]
    have h2 := sumBy_mset_some (fun c => getCount c.agg s) m
      (⟨w.key, leafStep w.children statuses r,
        addToAgg w.agg r.status 1⟩ : MidNode) hm
    simp only [getCount_addToAgg] at h2
    omega

theorem midStep_midOK (m : SMap MidNode) (statuses : List String)
    (r : Row) (hm : ∀ p ∈ m, midOK p.2) :
    ∀ p ∈ midStep m statuses r, midOK p.2 := by
  unfold midStep
  intro p hp
  rcases mem_mset _ _ _ p hp with rfl | hp2
  · rcases hg : mget m r.ou1 with _ | w
    · simp only [hg, Option.getD_none]
      exact midOK_apply statuses r (midOK_new r.ou1 statuses)
    · simp only [hg, Option.getD_some]
      exact midOK_apply statuses r (hm _ (mget_mem _ hg))
  · exact hm p hp2

theorem topOK_new (k : String) (statuses : List String) :
    topOK ⟨k, [], newAgg statuses⟩ := by
  refine ⟨aggOK_newAgg statuses, ?_, ?_, ?_⟩
  · simp [sumBy, newAgg_total]
  · intro s
    simp [sumBy, getCount_newAgg]
  · simp

theorem topOK_apply {n : TopNode} (statuses : List String) (r : Row)
    (h : topOK n) :
    topOK ⟨n.key, midStep n.children statuses r,
      addToAgg n.agg r.status 1⟩ := by
  obtain ⟨h1, h2, h3, h4⟩ := h
  refine ⟨aggOK_addToAgg h1 _ _, ?_, ?_, ?_⟩
  · show (addToAgg n.agg r.status 1).total
      = sumBy (fun c => c.agg.total) (midStep n.children statuses r)
    rw [addToAgg_total, midStep_sum_total, h2]
  · intro s
    show getCount (addToAgg n.agg r.status 1) s
      = sumBy (fun c => getCount c.agg s) (midStep n.children statuses r)
    rw [getCount_addToAgg, midStep_sum_count, h3 s]
  · exact midStep_midOK _ _ _ h4

theorem topStep_sum_total (m : SMap TopNode) (statuses : List String)
    (r : Row) :
    sumBy (fun c => c.agg.total) (topStep m statuses r)
      = sumBy (fun c => c.agg.total) m + 1 := by
  unfold topStep
  rcases hm : mget m r.ou0 with _ | w
  · simp only [Option.getD_none]
    rw [sumBy_mset_none _ _ _ hm]
    simp [addToAgg_total, newAgg_total]
  · simp only [Option.getD_some]
    have h2 := sumBy_mset_some (fun c => c.agg.total) m
      (⟨w.key, midStep w.children statuses r,
        addToAgg w.agg r.status 1⟩ : TopNode) hm
    simp only [addToAgg_total] at h2
    omega

theorem topStep_sum_count (m : SMap TopNode) (statuses : List String)
    (r : Row) (s : String) :
    sumBy (fun c => getCount c.agg s) (topStep m statuses r)
      = sumBy (fun c => getCount c.agg s) m
        + (if r.status = s then 1 else 0) := by
  unfold topStep
  rcases hm : mget m r.ou0 with _ | w
  · simp only [Option.getD_none]
    rw [sumBy_mset_none _ _ _ hm]
    simp [getCount_addToAgg, getCount_newAgg]
  · simp only [Option.getD_some]
    have h2 := sumBy_mset_some (fun c => getCount c.agg s) m
      (⟨w.key, midStep w.children statuses r,
        addToAgg w.agg r.status 1⟩ : TopNode) hm
    simp only [getCount_addToAgg] at h2
    omega

theorem topStep_topOK (m : SMap TopNode) (statuses : List String)
    (r : Row) (hm : ∀ p ∈ m, topOK p.2) :
    ∀ p ∈ topStep m statuses r, topOK p.2 := by
  unfold topStep
  intro p hp
  rcases mem_mset _ _ _ p hp with rfl | hp2
  · rcases hg : mget m r.ou0 with _ | w
    · simp only [hg, Option.getD_none]
      exact topOK_apply statuses r (topOK_new r.ou0 statuses)
    · simp only [hg, Option.getD_some]
      exact topOK_apply statuses r (hm _ (mget_mem _ hg))
  · exact hm p hp2

theorem rootOK_rootStep {st : RootNode} (statuses : List String) (r : Row)
    (h : rootOK st) : rootOK (rootStep st statuses r) := by
  obtain ⟨h1, h2, h3, h4⟩ := h
  refine ⟨aggOK_addToAgg h1 _ _, ?_, ?_, ?_⟩
  · show (addToAgg st.agg r.status 1).total
      = sumBy (fun c => c.agg.total) (topStep st.children statuses r)
    rw [addToAgg_total, topStep_sum_total, h2]
  · intro s
    show getCount (addToAgg st.agg r.status 1) s
      = sumBy (fun c => getCount c.agg s) (topStep st.children statuses r)
    rw [getCount_addToAgg, topStep_sum_count, h3 s]
  · exact topStep_topOK _ _ _ h4

theorem rootOK_empty (statuses : List String) :
    rootOK ⟨[], newAgg statuses⟩ := by
  refine ⟨aggOK_newAgg statuses, ?_, ?_, ?_⟩
  · simp [sumBy, newAgg_total]
  · intro s
    simp [sumBy, getCount_newAgg]
  · simp

theorem rootOK_fold (rows : List Row) (statuses : List String) :
    ∀ st : RootNode, rootOK st →
      rootOK (rows.foldl (fun st r => rootStep st statuses r) st) := by
  induction rows with
  | nil => intro st h; exact h
  | cons r rest ih =>
    intro st h
    rw [List.foldl_cons]
    exact ih _ (rootOK_rootStep statuses r h)

/-! ### Claim C1 -/

/-- C1: in the tree produced by `buildPivot`, every node's total equals
the sum of its stored per-status counts (`aggOK` at every level), and
at every parent level the total and every per-status count equal the
sums over the children (`rootOK`, `topOK`, `midOK`, `leafOK`). -/
theorem buildPivot_invariants (rows : List Row) :
    rootOK (buildPivot rows).root :=
  rootOK_fold _ _ _ (rootOK_empty _)

/-! ### Totals of the folds -/

theorem fold_agg_total (statuses : List String) :
    ∀ (rows : List Row) (st : RootNode),
      (rows.foldl (fun st r => rootStep st statuses r) st).agg.total
        = st.agg.total + rows.length := by
  intro rows
  induction rows with
  | nil => intro st; simp
  | cons r rest ih =>
    intro st
    rw [List.foldl_cons, ih]
    rw [show (rootStep st statuses r).agg.total = st.agg.total + 1 from rfl]
    simp [List.length_cons]
    omega

theorem buildPivot_total (rows : List Row) :
    (buildPivot rows).root.agg.total = (filteredRows rows).length := by
  show ((filteredRows rows).foldl
      (fun st r => rootStep st (pivotStatuses rows) r)
      ⟨[], newAgg (pivotStatuses rows)⟩).agg.total = _
  rw [fold_agg_total]
  simp [newAgg_total]

theorem flat_fold_total_aux (statuses : List String) :
    ∀ (l : List Row) (st : Agg × SMap FlatNode),
      (l.foldl
          (fun st r => (addToAgg st.1 r.status 1, flatStep st.2 statuses r))
          st).1.total
        = st.1.total + l.length := by
  intro l
  induction l with
  | nil => intro st; simp
  | cons r rest ih =>
    intro st
    rw [List.foldl_cons, ih]
    rw [show (addToAgg st.1 r.status 1).total = st.1.total + 1 from rfl]
    simp [List.length_cons]
    omega

theorem buildPivotFlat_total (rows : List Row) :
    (buildPivotFlat rows).grandAgg.total = (filteredRows rows).length := by
  show (flatFold rows).1.total = _
  unfold flatFold
  rw [flat_fold_total_aux]
  simp [newAgg_total]

theorem prevCounts_grand_aux :
    ∀ (l : List Row) (acc : SMap Nat × Nat),
      (l.foldl
          (fun acc r =>
            if r.applicationKey = "" then acc
            else (mset acc.1 r.ou0 ((mget acc.1 r.ou0).getD 0 + 1), acc.2 + 1))
          acc).2
        = acc.2 + (l.filter (fun r => !(r.applicationKey == ""))).length := by
  intro l
  induction l with
  | nil => intro acc; simp
  | cons r rest ih =>
    intro acc
    rw [List.foldl_cons]
    by_cases h : r.applicationKey = ""
    · rw [if_pos h, ih, List.filter_cons]
      simp [h]
    · rw [if_neg h, ih, List.filter_cons]
      simp [h]
      omega

theorem length_pos_iff_ne_empty (s : String) : 0 < s.length ↔ s ≠ "" := by
  constructor
  · intro h he
    subst he
    simp at h
  · intro h
    show 0 < s.data.length
    rcases hd : s.data with _ | ⟨c, cs⟩
    · exact absurd (str_eq_of_data_eq (by simp [hd])) h
    · simp

theorem filteredRows_eq_ne_empty (rows : List Row) :
    filteredRows rows = rows.filter (fun r => r.applicationKey ≠ "") := by
  unfold filteredRows
  refine List.filter_congr ?_
  intro r _
  rcases h : decide (r.applicationKey ≠ "") with _ | _
  · simp at h
    simp [h]
  · simp at h
    simp [h, (length_pos_iff_ne_empty r.applicationKey).mpr h]

theorem prevCounts_grand (rows : List Row) :
    (prevCounts rows).2 = (filteredRows rows).length := by
  unfold prevCounts
  rw [prevCounts_grand_aux, filteredRows_eq_ne_empty]
  have : (rows.filter (fun r => !(r.applicationKey == ""))).length
      = (rows.filter (fun r => r.applicationKey ≠ "")).length := by
    refine congrArg List.length (List.filter_congr ?_)
    intro r _
    rcases h : r.applicationKey == "" with _ | _
    · have hne : r.applicationKey ≠ "" := by simpa using h
      simp [h, hne]
    · have heq : r.applicationKey = "" := by simpa using h
      simp [h, heq]
  omega

/-! ### Claim C5 -/

/-- C5: rows whose application key is the empty string are excluded
from every count: the tree root total, the flat grand total and the
prior-period grand count all equal the number of rows with a non-empty
application key. -/
theorem empty_key_rows_excluded (rows : List Row) :
    (buildPivot rows).root.agg.total = (filteredRows rows).length ∧
    (buildPivotFlat rows).grandAgg.total = (filteredRows rows).length ∧
    (computePrevYearTargets rows).grandCount = (filteredRows rows).length ∧
    filteredRows rows = rows.filter (fun r => r.applicationKey ≠ "") :=
  ⟨buildPivot_total rows, buildPivotFlat_total rows,
    prevCounts_grand rows, filteredRows_eq_ne_empty rows⟩

/-! ### Claim C10 -/

/-- C10: the visible status sequence of `buildPivot` never contains a
status whose normalized form is `draft`, yet a `Draft` row with a
non-empty application key still increments the totals of the nodes it
visits, so on a dataset of one such row the sum of the root's counts
over the visible status columns (`0`) is strictly below the root total
(`1`); the level-0 child shows the same. -/
theorem draft_hidden_but_counted :
    (∀ rows, ((buildPivot rows).statuses.filter
        (fun s => normalizeHeader s == normalizeHeader "Draft")) = []) ∧
    (buildPivot [⟨"A", "B", "C", "K1", "Draft"⟩]).statuses = [] ∧
    (buildPivot [⟨"A", "B", "C", "K1", "Draft"⟩]).root.agg.total = 1 ∧
    ((mget (buildPivot [⟨"A", "B", "C", "K1", "Draft"⟩]).root.children
        "A").map (fun n => n.agg.total)) = some 1 ∧
    statusColumnSum (buildPivot [⟨"A", "B", "C", "K1", "Draft"⟩]).statuses
        (buildPivot [⟨"A", "B", "C", "K1", "Draft"⟩]).root.agg
      < (buildPivot [⟨"A", "B", "C", "K1", "Draft"⟩]).root.agg.total := by
  refine ⟨?_, by decide, by decide, by decide, by decide⟩
  intro rows
  show ((pivotStatuses rows).filter
    (fun s => normalizeHeader s == normalizeHeader "Draft")) = []
  unfold pivotStatuses
  rw [List.filter_filter]
  simp

/-! ### Claim C3 -/

/-- C3 counterexample: in the flat (worker) view the level-0 groups
are sorted by plain `localeCompare`, so the blank sentinel is *not*
pushed last: with groups `Zeta` and `(blank)` present, `(blank)` comes
first and the last presented key is `Zeta`. -/
theorem flat_blank_not_last_counterexample :
    ((buildPivotFlat [⟨"Zeta", "U", "V", "K1", "Approved"⟩,
        ⟨"(blank)", "U", "V", "K2", "Approved"⟩]).ou0Aggs.map
      (fun n => n.key)) = ["(blank)", "Zeta"] ∧
    (((buildPivotFlat [⟨"Zeta", "U", "V", "K1", "Approved"⟩,
        ⟨"(blank)", "U", "V", "K2", "Approved"⟩]).ou0Aggs.map
      (fun n => n.key)).getLast? = some "Zeta") ∧
    ("Zeta" : String) ≠ "(blank)" := by
  refine ⟨by decide, by decide, by decide⟩

/-- C3 (amended): only `renderPivot` (`main.js:971-975`) orders the
level-0 keys lexicographically with the blank sentinel forced last;
`buildPivotFlat` (`xlsxWorker.js:151`), whose order the flat rendering
presents unchanged, sorts the groups purely lexicographically, so
`"(blank)"` appears in its lexicographic position there. -/
theorem level0_key_order :
    (∀ st : RootNode, List.Sorted renderLE (renderOu0Keys st) ∧
      List.Perm (renderOu0Keys st) (st.children.map (fun p => p.1))) ∧
    (∀ rows : List Row,
      List.Sorted flatLE (buildPivotFlat rows).ou0Aggs) := by
  constructor
  · intro st
    haveI : IsTotal String renderLE := ⟨renderLE_total⟩
    haveI : IsTrans String renderLE := ⟨fun _ _ _ => renderLE_trans⟩
    exact ⟨List.sorted_insertionSort renderLE _,
      List.perm_insertionSort renderLE _⟩
  · intro rows
    haveI : IsTotal FlatNode flatLE := ⟨fun a b => strLe_total a.key b.key⟩
    haveI : IsTrans FlatNode flatLE := ⟨fun _ _ _ => strLe_trans⟩
    exact List.sorted_insertionSort flatLE _

/-! ### Positivity of `computeTarget` -/

theorem pow_bitLen_pred_le :
    ∀ (fuel n : Nat), n ≠ 0 → 2 ^ (bitLen fuel n - 1) ≤ n := by
  intro fuel
  induction fuel with
  | zero =>
    intro n h0
    simp [bitLen]
    omega
  | succ f ih =>
    intro n h0
    rw [show bitLen (f + 1) n = bitLen f (n / 2) + 1 by simp [bitLen, h0]]
    by_cases h1 : n / 2 = 0
    · rw [h1, show bitLen f 0 = 0 by cases f <;> simp [bitLen]]
      simpa using Nat.one_le_iff_ne_zero.mpr h0
    · have hrec := ih (n / 2) h1
      by_cases hb : bitLen f (n / 2) = 0
      · rw [hb]
        simpa using Nat.one_le_iff_ne_zero.mpr h0
      · have hsplit : bitLen f (n / 2) + 1 - 1 = (bitLen f (n / 2) - 1) + 1 := by
          omega
        rw [hsplit, pow_succ]
        have := Nat.div_le_self n 2
        have h2 : 2 ^ (bitLen f (n / 2) - 1) * 2 ≤ (n / 2) * 2 :=
          Nat.mul_le_mul_right 2 hrec
        have h3 : (n / 2) * 2 ≤ n := by omega
        omega

theorem roundToDouble_pos {N : Nat} (h : 1 ≤ N) : 1 ≤ roundToDouble N := by
  unfold roundToDouble
  by_cases hN : N < 2 ^ 53
  · rw [if_pos hN]
    exact h
  · rw [if_neg hN]
    dsimp only
    have hpow : 2 ^ (bitLen 128 N - 53) ≤ N := by
      rcases Nat.eq_zero_or_pos (bitLen 128 N - 53) with hz | hpos
      · rw [hz]
        simpa using h
      · have hle : bitLen 128 N - 53 ≤ bitLen 128 N - 1 := by omega
        calc 2 ^ (bitLen 128 N - 53) ≤ 2 ^ (bitLen 128 N - 1) :=
              Nat.pow_le_pow_right (by omega) hle
          _ ≤ N := pow_bitLen_pred_le 128 N (by omega)
    have hq : 1 ≤ N / 2 ^ (bitLen 128 N - 53) :=
      Nat.one_le_div_iff (Nat.pos_pow_of_pos _ (by omega)) |>.mpr hpow
    have hpos2 : 1 ≤ 2 ^ (bitLen 128 N - 53) :=
      Nat.pos_pow_of_pos _ (by omega)
    split
    · exact Nat.one_le_iff_ne_zero.mpr
        (Nat.mul_ne_zero (by omega) (by omega))
    · exact Nat.one_le_iff_ne_zero.mpr
        (Nat.mul_ne_zero (by omega) (by omega))

theorem computeTarget_pos {n : Nat} (h : 1 ≤ n) : 1 ≤ computeTarget n := by
  unfold computeTarget
  have hN : 1 ≤ n * elevenTenths := by
    have : 1 * 1 ≤ n * elevenTenths :=
      Nat.mul_le_mul h (by unfold elevenTenths; omega)
    omega
  have hR := roundToDouble_pos hN
  have h51 : 0 < 2 ^ 51 := Nat.pos_pow_of_pos _ (by omega)
  rw [Nat.le_div_iff_mul_le h51]
  omega

/-! ### Every flat level-0 group has a positive total -/

theorem flatStep_pos (statuses : List String) (r : Row)
    (m : SMap FlatNode) (hm : ∀ p ∈ m, 1 ≤ p.2.agg.total) :
    ∀ p ∈ flatStep m statuses r, 1 ≤ p.2.agg.total := by
  unfold flatStep
  intro p hp
  rcases mem_mset _ _ _ p hp with rfl | hp2
  · rcases hg : mget m r.ou0 with _ | w
    · simp only [hg, Option.getD_none]
      rw [show ((⟨r.ou0, newAgg statuses⟩ : FlatNode).key,
          (⟨(⟨r.ou0, newAgg statuses⟩ : FlatNode).key,
            addToAgg (⟨r.ou0, newAgg statuses⟩ : FlatNode).agg r.status 1⟩
            : FlatNode)).2.agg.total
        = (newAgg statuses).total + 1 from rfl]
      omega
    · simp only [hg, Option.getD_some]
      rw [show ((w.key, (⟨w.key, addToAgg w.agg r.status 1⟩
          : FlatNode)) : String × FlatNode).2.agg.total
        = w.agg.total + 1 from rfl]
      omega
  · exact hm p hp2

theorem flatFold_pos_aux (statuses : List String) :
    ∀ (l : List Row) (st : Agg × SMap FlatNode),
      (∀ p ∈ st.2, 1 ≤ p.2.agg.total) →
      ∀ p ∈ (l.foldl
          (fun st r => (addToAgg st.1 r.status 1, flatStep st.2 statuses r))
          st).2, 1 ≤ p.2.agg.total := by
  intro l
  induction l with
  | nil => intro st h; exact h
  | cons r rest ih =>
    intro st h
    rw [List.foldl_cons]
    exact ih _ (flatStep_pos statuses r st.2 h)

theorem buildPivotFlat_group_pos (rows : List Row) :
    ∀ n ∈ (buildPivotFlat rows).ou0Aggs, 1 ≤ n.agg.total := by
  intro n hn
  have hn2 : n ∈ (flatFold rows).2.map (fun p => p.2) :=
    (List.perm_insertionSort flatLE _).mem_iff.mp hn
  rcases List.mem_map.mp hn2 with ⟨p, hp, rfl⟩
  refine flatFold_pos_aux (pivotStatuses rows) (filteredRows rows)
    (newAgg (pivotStatuses rows), []) ?_ p hp
  simp

/-! ### Claim C8 -/

/-- C8: with a prior-period target set available, a level-0 group whose
key is absent from the per-group targets receives exactly
`computeTarget` of its own current total (never the grand target), that
fallback is nonzero for the totals that actually occur (every flat
level-0 group total is at least 1), and the grand row receives the
prior-derived grand target. -/
theorem selectTarget_fallback_spec (prev : PrevState) (label lab : String)
    (current cur g : Nat) (rows : List Row) (n : FlatNode)
    (hav : prev.available = true)
    (hmiss : mget prev.perOU0 label = none)
    (hg : prev.grand = some g)
    (hcur : 1 ≤ current)
    (hn : n ∈ (buildPivotFlat rows).ou0Aggs) :
    selectTarget prev RowKind.group0 label current = computeTarget current ∧
    1 ≤ selectTarget prev RowKind.group0 label current ∧
    selectTarget prev RowKind.grand lab cur = g ∧
    1 ≤ n.agg.total := by
  have hsel : selectTarget prev RowKind.group0 label current
      = computeTarget current := by
    simp [selectTarget, hav, hmiss]
  refine ⟨hsel, ?_, ?_, buildPivotFlat_group_pos rows n hn⟩
  · rw [hsel]
    exact computeTarget_pos hcur
  · simp [selectTarget, hav, hg]

/-- Witness for C8 at concrete inputs: the prior targets know only
group `"X"`, the current group `"Y"` has no counterpart and total `3`,
and `buildPivotFlat` on one row produces the group node with total 1. -/
theorem selectTarget_fallback_spec_witness :
    ((⟨[("X", 5)], some 42, true⟩ : PrevState).available = true ∧
      mget (⟨[("X", 5)], some 42, true⟩ : PrevState).perOU0 "Y" = none ∧
      (⟨[("X", 5)], some 42, true⟩ : PrevState).grand = some 42 ∧
      (1 : Nat) ≤ 3 ∧
      (⟨"Zeta", ⟨[("Approved", 1)], 1⟩⟩ : FlatNode) ∈
        (buildPivotFlat [⟨"Zeta", "U", "V", "K1", "Approved"⟩]).ou0Aggs) ∧
    (selectTarget ⟨[("X", 5)], some 42, true⟩ RowKind.group0 "Y" 3
        = computeTarget 3 ∧
      1 ≤ selectTarget ⟨[("X", 5)], some 42, true⟩ RowKind.group0 "Y" 3 ∧
      selectTarget ⟨[("X", 5)], some 42, true⟩ RowKind.grand "L" 7 = 42 ∧
      1 ≤ (⟨"Zeta", ⟨[("Approved", 1)], 1⟩⟩ : FlatNode).agg.total) :=
  ⟨⟨by decide, by decide, by decide, by decide, by decide⟩,
    selectTarget_fallback_spec ⟨[("X", 5)], some 42, true⟩ "Y" "L" 3 7 42
      [⟨"Zeta", "U", "V", "K1", "Approved"⟩] ⟨"Zeta", ⟨[("Approved", 1)], 1⟩⟩
      (by decide) (by decide) (by decide) (by decide) (by decide)⟩

end Pivot
